import Mathlib

/-!
Verification of the file-based action-queue and config-mutation bridge
(`claude-desktop-bridge.py`) and of the WSL path translation helper
(`src/utils/wsl/wsl_utils.py`).

The Python code is shallowly embedded: JSON values become the inductive `J`,
Python dicts become insertion-ordered association lists (`List (String × J)`;
dicts produced by `json.load` always have unique keys), file contents become
`FileContent` (either well-formed JSON or malformed raw bytes), and every
operation that can raise an exception is modelled by the value the surrounding
`try/except` converts that exception into (the handlers in the source catch
every exception and return `False` / leave state untouched).  JSON numbers are
modelled as integers; only their ordering is relevant to the claims.
-/

namespace Bridge

/-- JSON values as produced by Python's `json.load`. -/
inductive J where
  | null
  | bool (b : Bool)
  | num (n : Int)
  | str (s : String)
  | arr (elems : List J)
  | obj (fields : List (String × J))

/-- First binding of key `k` in an insertion-ordered association list
(Python `d[k]` / `d.get(k)` on a dict, which has unique keys). -/
def lookupKey : List (String × J) → String → Option J
  | [], _ => none
  | (k, v) :: rest, key => if k = key then some v else lookupKey rest key

/-- Python `k in d` for a dict. -/
def hasKey (fields : List (String × J)) (key : String) : Bool :=
  (lookupKey fields key).isSome

/-- Python `d[k] = v`: replace the first binding of `k`, or append a new one. -/
def setKey : List (String × J) → String → J → List (String × J)
  | [], key, v => [(key, v)]
  | (k, w) :: rest, key, v =>
      if k = key then (key, v) :: rest else (k, w) :: setKey rest key v

/-- Python `del d[k]`: drop the binding of `k` (unique in a real dict). -/
def delKey : List (String × J) → String → List (String × J)
  | [], _ => []
  | (k, w) :: rest, key =>
      if k = key then delKey rest key else (k, w) :: delKey rest key

/-- Python truthiness of a JSON value (`if not x`). -/
def truthy : J → Bool
  | .null => false
  | .bool b => b
  | .num n => n != 0
  | .str s => s != ""
  | .arr xs => !xs.isEmpty
  | .obj fs => !fs.isEmpty

/-- Truthiness of `d.get(k)` (`None` when the key is absent, which is falsy). -/
def truthyOpt : Option J → Bool
  | none => false
  | some v => truthy v

/-- Python `s == v` for a string `s` and an arbitrary JSON value `v`. -/
def isStrEq (s : String) : J → Bool
  | .str t => s == t
  | _ => false

/-- Whether `needle` starts `hay` (character-wise). -/
def startsList : List Char → List Char → Bool
  | [], _ => true
  | _ :: _, [] => false
  | a :: as, b :: bs => a == b && startsList as bs

/-- Whether `needle` occurs contiguously inside `hay`
(Python `needle in hay` for strings). -/
def containsSub (hay needle : List Char) : Bool :=
  match hay with
  | [] => startsList needle []
  | _ :: t => startsList needle hay || containsSub t needle

/-- Python `(str s) in v`: membership for lists, substring for strings,
key test for dicts; `none` models the `TypeError` other types raise. -/
def pyInStr (s : String) : J → Option Bool
  | .arr xs => some (xs.any (isStrEq s))
  | .str t => some (containsSub t.data s.data)
  | .obj fs => some (hasKey fs s)
  | _ => none

/-- Python `xs.remove(str s)`: drop the first element equal to the string. -/
def removeFirstStr : List J → String → List J
  | [], _ => []
  | x :: xs, s => if isStrEq s x then xs else x :: removeFirstStr xs s

/-- Content of a file on disk: either well-formed JSON (whose bytes are its
canonical serialization) or malformed raw bytes that `json.load` rejects. -/
inductive FileContent where
  | json (v : J)
  | malformed (raw : String)

/-- Filesystem state touched by the config-mutating handlers:
the config file, the backup snapshots (in creation order), and the
`reload_config` signal file. -/
structure Fs where
  configFile : Option FileContent
  backups : List FileContent
  reloadSignal : Bool

/-- Observable write events of one handler run, in program order. -/
inductive FsEvent where
  | writeBackup (content : FileContent)
  | writeConfig (content : FileContent)

/-- Embeds `ClaudeDesktopBridge.load_config`: a missing or malformed config
file raises inside the `try`, and the handler returns the empty document. -/
def load_config : Option FileContent → J
  | some (.json v) => v
  | _ => .obj []

/-- Embeds `ClaudeDesktopBridge.save_config`: first copy the current config
file's bytes to a fresh backup, then overwrite the config file with the new
document.  A missing config file makes the backup read raise, so nothing is
written and `False` is returned. -/
def save_config (st : Fs) (config : J) : Bool × Fs × List FsEvent :=
  match st.configFile with
  | none => (false, st, [])
  | some old =>
      (true,
       { st with backups := st.backups ++ [old], configFile := some (.json config) },
       [.writeBackup old, .writeConfig (.json config)])

/-- Config-document transformation performed by
`ClaudeDesktopBridge.add_mcp_server` between loading and saving;
`none` models any exception on the way (caught, handler returns `False`).
Truthy non-object documents and non-dict `mcpServers` values make the
item assignment raise, hence `none`. -/
def addToConfig (config : J) (name : String) (server_config : J)
    (autoFlag : J) : Option J :=
  match config with
  | .obj cf =>
    let cf1 := if hasKey cf "mcpServers" then cf
               else setKey cf "mcpServers" (.obj [])
    match lookupKey cf1 "mcpServers" with
    | some (.obj ms) =>
      let cf2 := setKey cf1 "mcpServers" (.obj (setKey ms name server_config))
      if truthy autoFlag then
        let cf3 := if hasKey cf2 "autoStart" then cf2
                   else setKey cf2 "autoStart" (.obj [("servers", .arr [])])
        match lookupKey cf3 "autoStart" with
        | some (.obj af) =>
          match lookupKey af "servers" with
          | some servers =>
            match pyInStr name servers with
            | some true => some (.obj cf3)
            | some false =>
              match servers with
              | .arr xs =>
                some (.obj (setKey cf3 "autoStart"
                  (.obj (setKey af "servers" (.arr (xs ++ [.str name]))))))
              | _ => none
            | none => none
          | none => none
        | _ => none
      else some (.obj cf2)
    | _ => none
  | _ => none

/-- Config-document transformation performed by
`ClaudeDesktopBridge.remove_mcp_server`: `some c` means the handler proceeds
to `save_config c`; `none` covers both the "not found" branch (logged, returns
`False` without saving) and every exception path. -/
def removeFromConfig (config : J) (name : String) : Option J :=
  match config with
  | .obj cf =>
    match lookupKey cf "mcpServers" with
    | some msv =>
      match pyInStr name msv with
      | some true =>
        match msv with
        | .obj ms =>
          let cf1 := setKey cf "mcpServers" (.obj (delKey ms name))
          match lookupKey cf1 "autoStart" with
          | some asv =>
            match pyInStr "servers" asv with
            | some true =>
              match asv with
              | .obj af =>
                match lookupKey af "servers" with
                | some servers =>
                  match pyInStr name servers with
                  | some true =>
                    match servers with
                    | .arr xs =>
                      some (.obj (setKey cf1 "autoStart"
                        (.obj (setKey af "servers"
                          (.arr (removeFirstStr xs name))))))
                    | _ => none
                  | some false => some (.obj cf1)
                  | none => none
                | none => none
              | _ => none
            | some false => some (.obj cf1)
            | none => none
          | none => some (.obj cf1)
        | _ => none
      | _ => none
    | none => none
  | _ => none

/-- Embeds `ClaudeDesktopBridge.add_mcp_server`.  Truthy non-string names
(which real JSON clients never send; Python would coerce or reject them as
dict keys) are modelled as the failure path. -/
def add_mcp_server (st : Fs) (params : J) : Bool × Fs × List FsEvent :=
  match params with
  | .obj pf =>
    let server_name := lookupKey pf "name"
    let server_config := (lookupKey pf "config").getD (.obj [])
    if !truthyOpt server_name || !truthy server_config then (false, st, [])
    else
      match server_name with
      | some (.str name) =>
        match addToConfig (load_config st.configFile) name server_config
            ((lookupKey pf "autoStart").getD (.bool false)) with
        | some newConfig => save_config st newConfig
        | none => (false, st, [])
      | _ => (false, st, [])
  | _ => (false, st, [])

/-- Embeds `ClaudeDesktopBridge.remove_mcp_server`. -/
def remove_mcp_server (st : Fs) (params : J) : Bool × Fs × List FsEvent :=
  match params with
  | .obj pf =>
    match lookupKey pf "name" with
    | some nv =>
      if !truthy nv then (false, st, [])
      else
        match nv with
        | .str name =>
          match removeFromConfig (load_config st.configFile) name with
          | some newConfig => save_config st newConfig
          | none => (false, st, [])
        | _ => (false, st, [])
    | none => (false, st, [])
  | _ => (false, st, [])

/-- Embeds `ClaudeDesktopBridge.execute_action`: route on the `action` tag;
`switch_model` and `restart_claude` only log and report success,
`reload_config` touches the reload signal file; unknown tags fail. -/
def execute_action (st : Fs) (action : J) : Bool × Fs × List FsEvent :=
  match action with
  | .obj af =>
    let params := (lookupKey af "params").getD (.obj [])
    match lookupKey af "action" with
    | some (.str t) =>
      if t = "add_mcp_server" then add_mcp_server st params
      else if t = "remove_mcp_server" then remove_mcp_server st params
      else if t = "switch_model" then (true, st, [])
      else if t = "reload_config" then (true, { st with reloadSignal := true }, [])
      else if t = "restart_claude" then (true, st, [])
      else (false, st, [])
    | _ => (false, st, [])
  | _ => (false, st, [])

/-- Status field of a queued record, read the way the processing loop reads
`action['status']`: `none` models the `KeyError`/`TypeError` raised when the
record is not a dict or lacks the key. -/
def statusOf (a : J) : Option J :=
  match a with
  | .obj af => lookupKey af "status"
  | _ => none

/-- Boolean test `action['status'] == 'pending'` (for records whose status
read succeeds). -/
def isPendingStatus (a : J) : Bool :=
  match statusOf a with
  | some sv => isStrEq "pending" sv
  | none => false

/-- In-place status stamp `action['status'] = s` on a dict record. -/
def setStatus (a : J) (s : String) : J :=
  match a with
  | .obj af => .obj (setKey af "status" (.str s))
  | other => other

/-- Loop body of `ClaudeDesktopBridge.process_pending_actions` over
`data['actions']`.  Returns the rewritten records and the list of records
that were dispatched, plus the filesystem state after the executed handlers'
side effects.  A record that is not a dict or lacks `status` raises
`KeyError`/`TypeError`, aborting the whole loop (`none`): the file is then
never rewritten, but config-file writes performed by earlier iterations
persist, hence the state is still threaded out. -/
def processLoop (st : Fs) : List J → Option (List J × List J) × Fs
  | [] => (some ([], []), st)
  | a :: rest =>
    match a with
    | .obj af =>
      match lookupKey af "status" with
      | some sv =>
        if isStrEq "pending" sv then
          match execute_action st (.obj af) with
          | (succ, st1, _) =>
            let a1 := J.obj (setKey af "status"
              (.str (if succ then "completed" else "failed")))
            match processLoop st1 rest with
            | (some (as1, ex), st2) => (some (a1 :: as1, J.obj af :: ex), st2)
            | (none, st2) => (none, st2)
        else
          match processLoop st rest with
          | (some (as1, ex), st2) => (some (J.obj af :: as1, ex), st2)
          | (none, st2) => (none, st2)
      | none => (none, st)
    | _ => (none, st)

/-- Whole observable state of the bridge: the config-side filesystem plus the
single shared `pending_actions.json` file that holds every action record. -/
structure BridgeState where
  fs : Fs
  actionsFile : Option FileContent

/-- Timestamp of a record as the cleanup's sort key reads `x['timestamp']`;
`none` models the `KeyError` (and the `TypeError` Python raises when sorting
heterogeneous keys; records written by this program always carry numeric
timestamps). -/
def tsOf (a : J) : Option Int :=
  match a with
  | .obj af =>
    match lookupKey af "timestamp" with
    | some (.num n) => some n
    | _ => none
  | _ => none

/-- Stable descending insertion by the integer key, matching Python's stable
`sorted(key=..., reverse=True)`: an element is placed before every element
with a strictly smaller key and before equal keys inserted earlier
(i.e. appearing later in the original list). -/
def insertDesc (x : Int × J) : List (Int × J) → List (Int × J)
  | [] => [x]
  | y :: ys => if x.1 ≥ y.1 then x :: y :: ys else y :: insertDesc x ys

/-- Stable descending sort by key (Python `sorted(..., reverse=True)`). -/
def sortDesc : List (Int × J) → List (Int × J)
  | [] => []
  | x :: xs => insertDesc x (sortDesc xs)

/-- Pair every record with its timestamp key; `none` when any key read
raises. -/
def keyed : List J → Option (List (Int × J))
  | [] => some []
  | a :: rest =>
    match tsOf a with
    | some t => (keyed rest).map (fun ps => (t, a) :: ps)
    | none => none

/-- List transformation of `ClaudeDesktopBridge.cleanup_processed_actions`:
keep every pending record, then the 10 most recent non-pending ones.
`none` models any exception (missing `status`, non-dict record, unusable
`timestamp`), which leaves the file untouched. -/
def cleanupActions (acts : List J) : Option (List J) :=
  if acts.all (fun a => (statusOf a).isSome) then
    let pending := acts.filter (fun a => isPendingStatus a)
    let completed := acts.filter (fun a => !isPendingStatus a)
    match keyed completed with
    | some ck => some (pending ++ ((sortDesc ck).take 10).map Prod.snd)
    | none => none
  else none

/-- Embeds `ClaudeDesktopBridge.cleanup_processed_actions`: reread the
actions file, rewrite it with the trimmed list; every failure (unreadable
file, malformed records) is caught and leaves the state unchanged. -/
def cleanup_processed_actions (b : BridgeState) : BridgeState :=
  match b.actionsFile with
  | some (.json (.obj df)) =>
    match lookupKey df "actions" with
    | some (.arr acts) =>
      match cleanupActions acts with
      | some newActs =>
        { b with actionsFile := some (.json (.obj (setKey df "actions" (.arr newActs)))) }
      | none => b
    | _ => b
  | _ => b

/-- Embeds `ClaudeDesktopBridge.process_pending_actions`: read the shared
actions file, execute every pending record, stamp each with `completed` or
`failed` in place, write the whole list back to the same file, then run the
cleanup when anything was processed.  Every read/parse failure is caught and
returns `0` with the store untouched (iterating a non-list `actions` value
either raises on its first element or processes nothing and rewrites the
identical document, so it is modelled as the unchanged-state path). -/
def process_pending_actions (b : BridgeState) : Nat × BridgeState :=
  match b.actionsFile with
  | some (.json (.obj df)) =>
    match lookupKey df "actions" with
    | some (.arr acts) =>
      match processLoop b.fs acts with
      | (some (newActs, ex), fs1) =>
        let b1 : BridgeState :=
          { fs := fs1,
            actionsFile := some (.json (.obj (setKey df "actions" (.arr newActs)))) }
        if ex.length > 0 then (ex.length, cleanup_processed_actions b1)
        else (ex.length, b1)
      | (none, fs1) => (0, { b with fs := fs1 })
    | _ => (0, b)
  | _ => (0, b)

/-- Embeds `ClaudeDesktopBridge.add_pending_action`: stamp the caller's
record with a timestamp and `pending` status and append it to the shared
actions list.  The success log line reads `action['action']` only after the
file has been written, so a record without an `action` key still gets
persisted although `False` is returned. -/
def add_pending_action (b : BridgeState) (action : J) (now : Int) :
    Bool × BridgeState :=
  match b.actionsFile with
  | some (.json (.obj df)) =>
    match action with
    | .obj af =>
      let af2 := setKey (setKey af "timestamp" (.num now)) "status" (.str "pending")
      match lookupKey df "actions" with
      | some (.arr acts) =>
        (hasKey af2 "action",
         { b with actionsFile := some (.json (.obj (setKey df "actions" (.arr (acts ++ [.obj af2]))))) })
      | _ => (false, b)
    | _ => (false, b)
  | _ => (false, b)

/-- Records currently stored in the shared `pending_actions.json` file. -/
def storeRecords (b : BridgeState) : List J :=
  match b.actionsFile with
  | some (.json (.obj df)) =>
    match lookupKey df "actions" with
    | some (.arr acts) => acts
    | _ => []
  | _ => []

/-- Server entry stored under `mcpServers` (the spec's `namedServers`) for a
given name in a config document. -/
def namedServerLookup (doc : J) (s : String) : Option J :=
  match doc with
  | .obj cf =>
    match lookupKey cf "mcpServers" with
    | some (.obj ms) => lookupKey ms s
    | _ => none
  | _ => none

/-- Whether a name is a key of the `mcpServers` mapping of a document. -/
def hasServer (doc : J) (s : String) : Bool :=
  (namedServerLookup doc s).isSome

/-- Raw elements of `autoStart.servers` in a config document (empty when the
path is absent or not an array). -/
def autoStartNames (doc : J) : List J :=
  match doc with
  | .obj cf =>
    match lookupKey cf "autoStart" with
    | some (.obj af) =>
      match lookupKey af "servers" with
      | some (.arr xs) => xs
      | _ => []
    | _ => []
  | _ => []

/-- Spec invariant on a config document: every name listed in
`autoStart.servers` is also a key of `mcpServers`. -/
def serversInv (doc : J) : Prop :=
  ∀ s : String, (J.str s) ∈ autoStartNames doc → hasServer doc s = true

/-- Queue record requesting removal of server `s`, as the client submits it
(after `add_pending_action` stamped timestamp and status). -/
def removeActionRec (s : String) (t : Int) (status : String) : J :=
  .obj [("action", .str "remove_mcp_server"), ("params", .obj [("name", .str s)]),
        ("timestamp", .num t), ("status", .str status)]

/-- Concrete `switch_model` queue record (no timestamp), used as a fixture. -/
def switchRec (status : String) : J :=
  .obj [("action", .str "switch_model"), ("status", .str status)]

/-- Concrete `restart_claude` queue record with timestamp 1, used as a
fixture. -/
def restartRec (status : String) : J :=
  .obj [("action", .str "restart_claude"), ("timestamp", .num 1), ("status", .str status)]

/-- Concrete already-completed queue record with timestamp 2, used as a
fixture. -/
def doneRec : J :=
  .obj [("action", .str "noop"), ("timestamp", .num 2), ("status", .str "completed")]

end Bridge

namespace Wsl

/-- Whether the character is an ASCII lowercase letter (the regex class
`[a-z]`). -/
def lowerAlpha (c : Char) : Bool :=
  97 ≤ c.toNat && c.toNat ≤ 122

/-- Whether the character list is free of newlines (`.` in a Python regex
never matches a newline). -/
def noNl (l : List Char) : Bool :=
  !l.contains '\n'

/-- Python `path.replace("/", "\\")` on the captured suffix. -/
def backslashify (l : List Char) : List Char :=
  l.map (fun c => if c = '/' then '\\' else c)

/-- Result of Python's `re.match(r'^/mnt/([a-z])(/.*)?$', s)`:
`some (c, rest)` gives the drive-letter group and `match.group(2) or ''`.
Python's `$` also matches just before one trailing newline, and `.` never
matches a newline, so the tail after the drive letter must be empty, a lone
newline, or `/`-initial with no newline except an optional final one
(which is excluded from the captured group). -/
def mntMatch (s : List Char) : Option (Char × List Char) :=
  match s with
  | '/' :: 'm' :: 'n' :: 't' :: '/' :: c :: t =>
    if lowerAlpha c then
      let body := if t.getLast? = some '\n' then t.dropLast else t
      if body = [] then some (c, [])
      else
        match body with
        | '/' :: _ => if noNl body then some (c, body) else none
        | _ => none
    else none
  | _ => none

/-- Embeds `wsl_utils.convert_path_to_windows`: `None`/empty input gives
`None`; a `/mnt/<letter>` match is rewritten to a drive path; anything else
is returned unchanged. -/
def convert_path_to_windows : Option String → Option String
  | none => none
  | some p =>
    if p = "" then none
    else
      match mntMatch p.data with
      | none => some p
      | some (c, rest) =>
        some (String.mk (c.toUpper :: ':' :: backslashify rest))

/-- Strip one trailing newline, if any. -/
def stripNl (l : List Char) : List Char :=
  if l.getLast? = some '\n' then l.dropLast else l

/-- Modelled from the amended claim's words, independently of the embedding:
after discarding one trailing newline, an input of the exact shape
`/mnt/<lowercase letter><optional /rest with no newline>` is rewritten to
`<DRIVE>:<rest with every / replaced by \>`; `None` or empty input yields
`None`; every other input is returned unchanged. -/
def convertSpec : Option String → Option String
  | none => none
  | some p =>
    if p = "" then none
    else
      match stripNl p.data with
      | '/' :: 'm' :: 'n' :: 't' :: '/' :: c :: rest =>
        if lowerAlpha c && (rest.isEmpty || (rest.head? = some '/' && noNl rest)) then
          some (String.mk (c.toUpper :: ':' :: backslashify rest))
        else some p
      | _ => some p

end Wsl

namespace Bridge

theorem lookupKey_setKey_self (l : List (String × J)) (k : String) (v : J) :
    lookupKey (setKey l k v) k = some v := by
  induction l with
  | nil => simp [setKey, lookupKey]
  | cons p rest ih =>
    obtain ⟨k0, w⟩ := p
    by_cases h : k0 = k
    · simp [setKey, h, lookupKey]
    · simp [setKey, h, lookupKey, ih]

theorem lookupKey_setKey_ne (l : List (String × J)) (k k' : String) (v : J)
    (h : k' ≠ k) : lookupKey (setKey l k v) k' = lookupKey l k' := by
  induction l with
  | nil => simp [setKey, lookupKey, if_neg (Ne.symm h)]
  | cons p rest ih =>
    obtain ⟨k0, w⟩ := p
    by_cases h0 : k0 = k
    · subst h0
      simp only [setKey, if_pos rfl, lookupKey, if_neg (Ne.symm h)]
    · simp only [setKey, if_neg h0, lookupKey]
      by_cases h1 : k0 = k'
      · simp [h1]
      · simp [h1, ih]

theorem lookupKey_delKey_self (l : List (String × J)) (k : String) :
    lookupKey (delKey l k) k = none := by
  induction l with
  | nil => simp [delKey, lookupKey]
  | cons p rest ih =>
    obtain ⟨k0, w⟩ := p
    by_cases h : k0 = k
    · simp [delKey, h, ih]
    · simp [delKey, h, lookupKey, ih]

theorem lookupKey_delKey_ne (l : List (String × J)) (k k' : String)
    (h : k' ≠ k) : lookupKey (delKey l k) k' = lookupKey l k' := by
  induction l with
  | nil => simp [delKey]
  | cons p rest ih =>
    obtain ⟨k0, w⟩ := p
    by_cases h0 : k0 = k
    · subst h0
      simp only [delKey, if_pos rfl, lookupKey, if_neg (Ne.symm h), if_true, ih]
    · simp only [delKey, if_neg h0, lookupKey]
      by_cases h1 : k0 = k'
      · simp [h1]
      · simp [h1, ih]

theorem hasKey_setKey_self (l : List (String × J)) (k : String) (v : J) :
    hasKey (setKey l k v) k = true := by
  simp [hasKey, lookupKey_setKey_self]

theorem hasKey_setKey_ne (l : List (String × J)) (k k' : String) (v : J)
    (h : k' ≠ k) : hasKey (setKey l k v) k' = hasKey l k' := by
  simp [hasKey, lookupKey_setKey_ne l k k' v h]

theorem hasKey_delKey_self (l : List (String × J)) (k : String) :
    hasKey (delKey l k) k = false := by
  simp [hasKey, lookupKey_delKey_self]

theorem hasKey_delKey_ne (l : List (String × J)) (k k' : String)
    (h : k' ≠ k) : hasKey (delKey l k) k' = hasKey l k' := by
  simp [hasKey, lookupKey_delKey_ne l k k' h]

/-- C4.  For every successful config mutation — that is, every run of
`save_config` that returns `True`, which requires the config file to exist —
the filesystem gains a backup snapshot whose content equals the pre-mutation
config file content, the write trace puts the backup write strictly before
the config overwrite, and the pre-mutation content is among the stored
backups afterwards. -/
theorem c4_backup_before_overwrite (st : Fs) (config : J) (old : FileContent)
    (h : st.configFile = some old) :
    save_config st config =
      (true, ⟨some (.json config), st.backups ++ [old], st.reloadSignal⟩,
       [.writeBackup old, .writeConfig (.json config)]) ∧
    old ∈ (save_config st config).2.1.backups := by
  constructor
  · simp [save_config, h]
  · simp [save_config, h]

/-- Witness for `c4_backup_before_overwrite` at a concrete state. -/
theorem c4_witness :
    save_config ⟨some (.json (.obj [])), [], false⟩ (.obj [("a", .num 1)]) =
      (true, ⟨some (.json (.obj [("a", .num 1)])), [] ++ [FileContent.json (.obj [])], false⟩,
       [.writeBackup (.json (.obj [])), .writeConfig (.json (.obj [("a", .num 1)]))]) ∧
    FileContent.json (.obj []) ∈
      (save_config ⟨some (.json (.obj [])), [], false⟩ (.obj [("a", .num 1)])).2.1.backups :=
  c4_backup_before_overwrite ⟨some (.json (.obj [])), [], false⟩ (.obj [("a", .num 1)])
    (.json (.obj [])) rfl

/-- C8 (amended).  When the shared pending-actions file cannot be read or
parsed, `process_pending_actions` aborts inside its `try`, returns `0`, and
leaves the whole state unchanged: no synthetic failed record is produced
anywhere. -/
theorem c8_malformed_store_unchanged (b : BridgeState) (raw : String)
    (h : b.actionsFile = some (.malformed raw)) :
    process_pending_actions b = (0, b) := by
  unfold process_pending_actions
  rw [h]

/-- Witness for `c8_malformed_store_unchanged`. -/
theorem c8_witness :
    process_pending_actions ⟨⟨none, [], false⟩, some (.malformed "junk")⟩ =
      (0, ⟨⟨none, [], false⟩, some (.malformed "junk")⟩) :=
  c8_malformed_store_unchanged ⟨⟨none, [], false⟩, some (.malformed "junk")⟩ "junk" rfl

/-- C8 counterexample.  On a corrupt pending store the queue scan produces no
terminal `failed` record at all — the store is returned byte-for-byte
unchanged and holds zero records — contradicting the claim that a synthetic
failed record is created so that no action silently vanishes. -/
theorem c8_cex_no_synthetic_record :
    process_pending_actions ⟨⟨none, [], false⟩, some (.malformed "not-json")⟩ =
      (0, ⟨⟨none, [], false⟩, some (.malformed "not-json")⟩) ∧
    storeRecords ⟨⟨none, [], false⟩, some (.malformed "not-json")⟩ = [] :=
  ⟨rfl, rfl⟩

theorem cleanup_single_terminal (af : List (String × J)) (t : Int) (stv : String)
    (hts : lookupKey af "timestamp" = some (.num t))
    (hne : isStrEq "pending" (J.str stv) = false) :
    cleanupActions [J.obj (setKey af "status" (J.str stv))] =
      some [J.obj (setKey af "status" (J.str stv))] := by
  unfold cleanupActions
  simp only [List.all_cons, List.all_nil, statusOf, lookupKey_setKey_self, Option.isSome_some,
    Bool.and_true, if_true, isPendingStatus, hne, keyed, tsOf,
    lookupKey_setKey_ne af "status" "timestamp" _ (by decide), hts, sortDesc, insertDesc,
    List.take, List.map, Option.map, List.filter, Bool.not_false]
  simp

theorem process_single_pending (fs0 fs1 : Fs) (af : List (String × J))
    (succ : Bool) (evs : List FsEvent) (t : Int)
    (hst : lookupKey af "status" = some (.str "pending"))
    (hts : lookupKey af "timestamp" = some (.num t))
    (hex : execute_action fs0 (.obj af) = (succ, fs1, evs)) :
    process_pending_actions ⟨fs0, some (.json (.obj [("actions", .arr [.obj af])]))⟩ =
      (1, ⟨fs1, some (.json (.obj [("actions",
        .arr [J.obj (setKey af "status" (.str (if succ then "completed" else "failed")))])]))⟩) := by
  have hloop : processLoop fs0 [J.obj af] =
      (some ([J.obj (setKey af "status" (.str (if succ then "completed" else "failed")))],
        [J.obj af]), fs1) := by
    simp only [processLoop, hst, show isStrEq "pending" (J.str "pending") = true from rfl,
      if_true, hex]
  unfold process_pending_actions
  simp only [show lookupKey [("actions", J.arr [J.obj af])] "actions" = some (J.arr [J.obj af]) from rfl,
    hloop]
  simp only [List.length_singleton, gt_iff_lt, zero_lt_one, if_true,
    show setKey [("actions", J.arr [J.obj af])] "actions"
      (J.arr [J.obj (setKey af "status" (.str (if succ then "completed" else "failed")))]) =
      [("actions", J.arr [J.obj (setKey af "status" (.str (if succ then "completed" else "failed")))])] from rfl]
  unfold cleanup_processed_actions
  simp only [show ∀ v : J, lookupKey [("actions", v)] "actions" = some v from fun v => rfl]
  cases succ
  · simp only [Bool.false_eq_true, if_false]
    rw [cleanup_single_terminal af t "failed" hts rfl]
    rfl
  · simp only [eq_self_iff_true, if_true]
    rw [cleanup_single_terminal af t "completed" hts rfl]
    rfl


/-- C1 (amended).  Submitting a `remove_mcp_server` action for a name that is
not a key of the `mcpServers` mapping leaves the handler in its "not found"
branch, which returns `False` without touching the config filesystem, so the
terminal record produced by the queue has status `failed` — not `completed` —
and no result text is recorded anywhere.  `namedServers` (and the whole config
state) is unchanged. -/
theorem c1_remove_missing_marks_failed (fsst : Fs) (cf : List (String × J))
    (s : String) (t : Int)
    (hload : load_config fsst.configFile = .obj cf)
    (hmiss : lookupKey cf "mcpServers" = none ∨
      ∃ ms, lookupKey cf "mcpServers" = some (.obj ms) ∧ hasKey ms s = false) :
    remove_mcp_server fsst (.obj [("name", .str s)]) = (false, fsst, []) ∧
    process_pending_actions
        ⟨fsst, some (.json (.obj [("actions", .arr [removeActionRec s t "pending"])]))⟩ =
      (1, ⟨fsst, some (.json (.obj [("actions", .arr [removeActionRec s t "failed"])]))⟩) := by
  have h1 : remove_mcp_server fsst (.obj [("name", .str s)]) = (false, fsst, []) := by
    unfold remove_mcp_server
    simp only [show lookupKey [("name", J.str s)] "name" = some (J.str s) from rfl]
    by_cases hs : s = ""
    · subst hs
      rfl
    · rw [show truthy (J.str s) = true by simp [truthy, hs]]
      simp only [Bool.not_true, Bool.false_eq_true, if_false]
      rw [hload]
      unfold removeFromConfig
      simp only []
      rcases hmiss with h | ⟨ms, hms, hk⟩
      · rw [h]
      · rw [hms]
        simp only [pyInStr, hk]
  refine ⟨h1, ?_⟩
  have hex : execute_action fsst
      (.obj [("action", J.str "remove_mcp_server"), ("params", J.obj [("name", J.str s)]),
             ("timestamp", J.num t), ("status", J.str "pending")]) = (false, fsst, []) := h1
  exact process_single_pending fsst fsst _ false [] t rfl rfl hex

/-- Witness for `c1_remove_missing_marks_failed` on a config that lacks the
requested name. -/
theorem c1_witness :
    remove_mcp_server ⟨some (.json (.obj [("mcpServers", .obj [])])), [], false⟩
        (.obj [("name", .str "ghost")]) =
      (false, ⟨some (.json (.obj [("mcpServers", .obj [])])), [], false⟩, []) ∧
    process_pending_actions
        ⟨⟨some (.json (.obj [("mcpServers", .obj [])])), [], false⟩,
         some (.json (.obj [("actions", .arr [removeActionRec "ghost" 3 "pending"])]))⟩ =
      (1, ⟨⟨some (.json (.obj [("mcpServers", .obj [])])), [], false⟩,
        some (.json (.obj [("actions", .arr [removeActionRec "ghost" 3 "failed"])]))⟩) :=
  c1_remove_missing_marks_failed ⟨some (.json (.obj [("mcpServers", .obj [])])), [], false⟩
    [("mcpServers", .obj [])] "ghost" 3 rfl (Or.inr ⟨[], rfl, rfl⟩)

/-- C1 counterexample.  Submitting `remove_mcp_server` for the absent name
`ghost` yields a terminal record whose status is `failed`, while the claim
demands status `completed` with a "not found" result note.  (The embedded
record carries no result field at all; the code records none.) -/
theorem c1_cex_status_failed_not_completed :
    process_pending_actions ⟨⟨some (.json (.obj [])), [], false⟩,
        some (.json (.obj [("actions", .arr [removeActionRec "ghost" 0 "pending"])]))⟩ =
      (1, ⟨⟨some (.json (.obj [])), [], false⟩,
        some (.json (.obj [("actions", .arr [removeActionRec "ghost" 0 "failed"])]))⟩) ∧
    statusOf (removeActionRec "ghost" 0 "failed") = some (.str "failed") ∧
    (J.str "failed") ≠ (J.str "completed") :=
  ⟨rfl, rfl, by simp only [ne_eq, J.str.injEq]; decide⟩

/-- C2 (amended).  On malformed persisted config content a mutating
`add_mcp_server` does not abort: `load_config` swallows the parse failure and
returns the empty document, the action proceeds, a backup containing the
malformed bytes is created, and the config file is overwritten with the
document rebuilt from empty. -/
theorem c2_malformed_config_backed_up_and_overwritten (st : Fs) (raw name : String)
    (cfgv : J) (hcf : st.configFile = some (.malformed raw)) (hn : name ≠ "")
    (hc : truthy cfgv = true) :
    add_mcp_server st (.obj [("name", .str name), ("config", cfgv)]) =
      (true, ⟨some (.json (.obj [("mcpServers", .obj [(name, cfgv)])])),
             st.backups ++ [.malformed raw], st.reloadSignal⟩,
       [.writeBackup (.malformed raw),
        .writeConfig (.json (.obj [("mcpServers", .obj [(name, cfgv)])]))]) := by
  obtain ⟨cfile, bks, rsig⟩ := st
  simp only [Fs.mk.injEq] at hcf ⊢
  cases hcf
  unfold add_mcp_server
  simp only [show lookupKey [("name", J.str name), ("config", cfgv)] "name" = some (J.str name) from rfl,
    show lookupKey [("name", J.str name), ("config", cfgv)] "config" = some cfgv from rfl,
    show lookupKey [("name", J.str name), ("config", cfgv)] "autoStart" = none from rfl,
    Option.getD_some, Option.getD_none, truthyOpt]
  rw [show truthy (J.str name) = true by simp [truthy, hn], hc]
  rfl

/-- Witness for `c2_malformed_config_backed_up_and_overwritten`. -/
theorem c2_witness :
    add_mcp_server ⟨some (.malformed "bad"), [], false⟩
        (.obj [("name", .str "w1"), ("config", .num 7)]) =
      (true, ⟨some (.json (.obj [("mcpServers", .obj [("w1", .num 7)])])),
             [] ++ [.malformed "bad"], false⟩,
       [.writeBackup (.malformed "bad"),
        .writeConfig (.json (.obj [("mcpServers", .obj [("w1", .num 7)])]))]) :=
  c2_malformed_config_backed_up_and_overwritten ⟨some (.malformed "bad"), [], false⟩
    "bad" "w1" (.num 7) rfl (by decide) rfl

/-- C2 counterexample.  With malformed config content `oops`, an `add_server`
action does not abort before writing: it returns success, a backup file is
created (backups list nonempty), and the config file no longer holds the
original bytes — contradicting "no backup file is created and the original
config file content is left byte-for-byte untouched". -/
theorem c2_cex_backup_created_and_config_replaced :
    add_mcp_server ⟨some (.malformed "oops"), [], false⟩
        (.obj [("name", .str "s1"), ("config", .obj [("command", .str "node")])]) =
      (true, ⟨some (.json (.obj [("mcpServers", .obj [("s1", .obj [("command", .str "node")])])])),
             [.malformed "oops"], false⟩,
       [.writeBackup (.malformed "oops"),
        .writeConfig (.json (.obj [("mcpServers", .obj [("s1", .obj [("command", .str "node")])])]))]) ∧
    ([FileContent.malformed "oops"] : List FileContent) ≠ [] ∧
    some (FileContent.json (.obj [("mcpServers", .obj [("s1", .obj [("command", .str "node")])])])) ≠
      some (FileContent.malformed "oops") :=
  ⟨rfl, by simp, fun h => FileContent.noConfusion (Option.some.inj h)⟩

end Bridge

namespace Bridge

theorem mem_insertDesc (x p : Int × J) (l : List (Int × J)) :
    p ∈ insertDesc x l ↔ p = x ∨ p ∈ l := by
  induction l with
  | nil => simp [insertDesc]
  | cons y ys ih =>
    by_cases h : x.1 ≥ y.1
    · simp [insertDesc, h]
    · simp [insertDesc, h, ih]
      tauto

theorem mem_sortDesc (p : Int × J) (l : List (Int × J)) :
    p ∈ sortDesc l ↔ p ∈ l := by
  induction l with
  | nil => simp [sortDesc]
  | cons x xs ih => simp [sortDesc, mem_insertDesc, ih]

theorem pairwise_insertDesc (x : Int × J) (l : List (Int × J))
    (h : List.Pairwise (fun p q => q.1 ≤ p.1) l) :
    List.Pairwise (fun p q => q.1 ≤ p.1) (insertDesc x l) := by
  induction l with
  | nil => simp [insertDesc]
  | cons y ys ih =>
    rcases List.pairwise_cons.mp h with ⟨hy, hys⟩
    by_cases hc : x.1 ≥ y.1
    · simp only [insertDesc, if_pos hc]
      refine List.Pairwise.cons ?_ h
      intro q hq
      rcases List.mem_cons.mp hq with rfl | hq'
      · exact hc
      · exact le_trans (hy q hq') hc
    · simp only [insertDesc, if_neg hc]
      refine List.Pairwise.cons ?_ (ih hys)
      intro q hq
      rcases (mem_insertDesc x q ys).mp hq with rfl | hq'
      · exact le_of_lt (lt_of_not_ge hc)
      · exact hy q hq'

theorem pairwise_sortDesc (l : List (Int × J)) :
    List.Pairwise (fun p q => q.1 ≤ p.1) (sortDesc l) := by
  induction l with
  | nil => simp [sortDesc]
  | cons x xs ih => exact pairwise_insertDesc x _ ih

theorem keyed_mem (l : List J) (ck : List (Int × J)) (h : keyed l = some ck) :
    ∀ p ∈ ck, tsOf p.2 = some p.1 ∧ p.2 ∈ l := by
  induction l generalizing ck with
  | nil =>
    simp only [keyed, Option.some.injEq] at h
    subst h
    simp
  | cons a rest ih =>
    simp only [keyed] at h
    cases hts : tsOf a with
    | none => rw [hts] at h; simp at h
    | some t =>
      rw [hts] at h
      cases hres : keyed rest with
      | none => rw [hres] at h; simp at h
      | some ps =>
        rw [hres] at h
        simp only [Option.map_some', Option.some.injEq] at h
        subst h
        intro p hp
        rcases List.mem_cons.mp hp with rfl | hp'
        · exact ⟨hts, List.mem_cons_self _ _⟩
        · obtain ⟨h1, h2⟩ := ih ps hres p hp'
          exact ⟨h1, List.mem_cons_of_mem _ h2⟩

theorem keyed_exists (l : List J) (ck : List (Int × J)) (h : keyed l = some ck) :
    ∀ a ∈ l, ∃ t, (t, a) ∈ ck := by
  induction l generalizing ck with
  | nil => simp
  | cons a rest ih =>
    simp only [keyed] at h
    cases hts : tsOf a with
    | none => rw [hts] at h; simp at h
    | some t =>
      rw [hts] at h
      cases hres : keyed rest with
      | none => rw [hres] at h; simp at h
      | some ps =>
        rw [hres] at h
        simp only [Option.map_some', Option.some.injEq] at h
        subst h
        intro b hb
        rcases List.mem_cons.mp hb with rfl | hb'
        · exact ⟨t, List.mem_cons_self _ _⟩
        · obtain ⟨tb, htb⟩ := ih ps hres b hb'
          exact ⟨tb, List.mem_cons_of_mem _ htb⟩

theorem cleanupActions_mem (acts out : List J) (h : cleanupActions acts = some out) :
    ∀ a ∈ out, a ∈ acts := by
  unfold cleanupActions at h
  by_cases hall : acts.all (fun a => (statusOf a).isSome) = true
  · rw [if_pos hall] at h
    simp only [] at h
    cases hk : keyed (acts.filter (fun a => !isPendingStatus a)) with
    | none => rw [hk] at h; simp at h
    | some ck =>
      rw [hk] at h
      simp only [Option.some.injEq] at h
      subst h
      intro a ha
      rcases List.mem_append.mp ha with h0 | h0
      · exact List.mem_of_mem_filter h0
      · rcases List.mem_map.mp h0 with ⟨p, hp, rfl⟩
        have hp' : p ∈ sortDesc ck := List.mem_of_mem_take hp
        have hck := (mem_sortDesc p ck).mp hp'
        exact List.mem_of_mem_filter ((keyed_mem _ _ hk p hck).2)
  · rw [if_neg hall] at h
    simp at h

end Bridge

namespace Bridge

theorem processLoop_spec (acts : List J) : ∀ (st : Fs) (out ex : List J) (st' : Fs),
    processLoop st acts = (some (out, ex), st') →
    out.length = acts.length ∧
    (∀ a ∈ ex, isPendingStatus a = true) ∧
    (∀ i a, acts.get? i = some a →
      (isPendingStatus a = false → out.get? i = some a) ∧
      (isPendingStatus a = true →
        out.get? i = some (setStatus a "completed") ∨
        out.get? i = some (setStatus a "failed"))) := by
  induction acts with
  | nil =>
    intro st out ex st' h
    simp only [processLoop, Prod.mk.injEq, Option.some.injEq] at h
    obtain ⟨⟨hout, hex⟩, hst⟩ := h
    subst hout
    subst hex
    refine ⟨rfl, by simp, ?_⟩
    intro i a hi
    simp at hi
  | cons a rest ih =>
    intro st out ex st' h
    cases a with
    | obj af =>
      simp only [processLoop] at h
      cases hsv : lookupKey af "status" with
      | none => rw [hsv] at h; simp at h
      | some sv =>
        rw [hsv] at h
        by_cases hp : isStrEq "pending" sv = true
        · simp only [hp, if_true] at h
          rcases hE : execute_action st (J.obj af) with ⟨succ, st1, evs⟩
          rw [hE] at h
          rcases hrec : processLoop st1 rest with ⟨orec, st2⟩
          rw [hrec] at h
          cases orec with
          | none => simp at h
          | some p =>
            obtain ⟨as1, ex1⟩ := p
            simp only [Prod.mk.injEq, Option.some.injEq] at h
            obtain ⟨⟨hout, hex⟩, hst⟩ := h
            subst hout
            subst hex
            obtain ⟨ihlen, ihex, ihget⟩ := ih st1 as1 ex1 st2 hrec
            have hpend : isPendingStatus (J.obj af) = true := by
              simp [isPendingStatus, statusOf, hsv, hp]
            refine ⟨by simp [ihlen], ?_, ?_⟩
            · intro a' ha'
              rcases List.mem_cons.mp ha' with h0 | h0
              · subst h0; exact hpend
              · exact ihex a' h0
            · intro i a hi
              cases i with
              | zero =>
                simp only [List.get?] at hi
                obtain rfl := Option.some.inj hi
                constructor
                · intro hfalse; rw [hpend] at hfalse; cases hfalse
                · intro _
                  cases succ
                  · right; rfl
                  · left; rfl
              | succ n =>
                simp only [List.get?] at hi ⊢
                exact ihget n a hi
        · have hp' : isStrEq "pending" sv = false := by
            simpa using hp
          simp only [hp', Bool.false_eq_true, if_false] at h
          rcases hrec : processLoop st rest with ⟨orec, st2⟩
          rw [hrec] at h
          cases orec with
          | none => simp at h
          | some p =>
            obtain ⟨as1, ex1⟩ := p
            simp only [Prod.mk.injEq, Option.some.injEq] at h
            obtain ⟨⟨hout, hex⟩, hst⟩ := h
            subst hout
            subst hex
            obtain ⟨ihlen, ihex, ihget⟩ := ih st as1 ex1 st2 hrec
            have hpend : isPendingStatus (J.obj af) = false := by
              simp [isPendingStatus, statusOf, hsv, hp']
            refine ⟨by simp [ihlen], ihex, ?_⟩
            intro i a hi
            cases i with
            | zero =>
              simp only [List.get?] at hi
              obtain rfl := Option.some.inj hi
              constructor
              · intro _; rfl
              · intro htrue; rw [hpend] at htrue; cases htrue
            | succ n =>
              simp only [List.get?] at hi ⊢
              exact ihget n a hi
    | null => simp [processLoop] at h
    | bool b => simp [processLoop] at h
    | num n => simp [processLoop] at h
    | str s => simp [processLoop] at h
    | arr xs => simp [processLoop] at h

/-- C3 (amended).  All action records live together in the single shared
`pending_actions.json` actions list: a processing pass keeps every record at
its original index in that same list, leaving non-pending records untouched
and updating a pending record's `status` field in place to `completed` or
`failed`.  There are no per-id record files, no separate pending/completed/
failed storage areas, and no relocation or rename — contrary to the claim's
atomic-relocation architecture. -/
theorem c3_in_place_status_single_store (st : Fs) (acts out ex : List J) (st' : Fs)
    (h : processLoop st acts = (some (out, ex), st')) :
    out.length = acts.length ∧
    (∀ i a, acts.get? i = some a →
      (isPendingStatus a = false → out.get? i = some a) ∧
      (isPendingStatus a = true →
        out.get? i = some (setStatus a "completed") ∨
        out.get? i = some (setStatus a "failed"))) :=
  ⟨(processLoop_spec acts st out ex st' h).1, (processLoop_spec acts st out ex st' h).2.2⟩

/-- Witness for `c3_in_place_status_single_store` on a one-record queue. -/
theorem c3_witness :
    ([switchRec "completed"] : List J).length = ([switchRec "pending"] : List J).length ∧
    ((isPendingStatus (switchRec "pending") = false →
        ([switchRec "completed"] : List J).get? 0 = some (switchRec "pending")) ∧
     (isPendingStatus (switchRec "pending") = true →
        ([switchRec "completed"] : List J).get? 0 = some (setStatus (switchRec "pending") "completed") ∨
        ([switchRec "completed"] : List J).get? 0 = some (setStatus (switchRec "pending") "failed"))) :=
  ⟨(c3_in_place_status_single_store ⟨none, [], false⟩ [switchRec "pending"]
      [switchRec "completed"] [switchRec "pending"] ⟨none, [], false⟩ rfl).1,
   (c3_in_place_status_single_store ⟨none, [], false⟩ [switchRec "pending"]
      [switchRec "completed"] [switchRec "pending"] ⟨none, [], false⟩ rfl).2
     0 (switchRec "pending") rfl⟩

/-- C3 counterexample.  After processing, the terminal (completed) record is
still stored inside the shared pending-actions file — the very storage the
pending record occupied — so terminal records are not published into a
separate completed area by a rename, and records carry no id at all. -/
theorem c3_cex_terminal_record_stays_in_shared_store :
    process_pending_actions ⟨⟨none, [], false⟩,
        some (.json (.obj [("actions", .arr [restartRec "pending"])]))⟩ =
      (1, ⟨⟨none, [], false⟩,
        some (.json (.obj [("actions", .arr [restartRec "completed"])]))⟩) ∧
    restartRec "completed" ∈ storeRecords ⟨⟨none, [], false⟩,
        some (.json (.obj [("actions", .arr [restartRec "completed"])]))⟩ ∧
    statusOf (restartRec "completed") = some (.str "completed") :=
  ⟨rfl, List.mem_singleton.mpr rfl, rfl⟩

/-- C7.  Terminal statuses are stable and only pending records are executed:
in a processing pass every dispatched record had status `pending`, every
record with a non-pending (in particular terminal) status is carried over
unchanged at its index, and the cleanup only ever keeps existing records
as they are (it never alters a status or re-dispatches anything). -/
theorem c7_terminal_once_set (st : Fs) (acts out ex : List J) (st' : Fs)
    (h : processLoop st acts = (some (out, ex), st'))
    (acts2 out2 : List J) (h2 : cleanupActions acts2 = some out2) :
    (∀ a ∈ ex, isPendingStatus a = true) ∧
    (∀ i a, acts.get? i = some a → isPendingStatus a = false → out.get? i = some a) ∧
    (∀ a ∈ out2, a ∈ acts2) := by
  obtain ⟨_, hex, hget⟩ := processLoop_spec acts st out ex st' h
  exact ⟨hex, fun i a hi hp => (hget i a hi).1 hp, cleanupActions_mem acts2 out2 h2⟩

/-- Witness for `c7_terminal_once_set` on a queue holding one pending and one
completed record. -/
theorem c7_witness :
    isPendingStatus (restartRec "pending") = true ∧
    ([restartRec "completed", doneRec] : List J).get? 1 = some doneRec ∧
    doneRec ∈ ([doneRec] : List J) :=
  ⟨(c7_terminal_once_set ⟨none, [], false⟩ [restartRec "pending", doneRec]
      [restartRec "completed", doneRec] [restartRec "pending"] ⟨none, [], false⟩ rfl
      [doneRec] [doneRec] rfl).1 (restartRec "pending") (List.mem_singleton.mpr rfl),
   (c7_terminal_once_set ⟨none, [], false⟩ [restartRec "pending", doneRec]
      [restartRec "completed", doneRec] [restartRec "pending"] ⟨none, [], false⟩ rfl
      [doneRec] [doneRec] rfl).2.1 1 doneRec rfl rfl,
   (c7_terminal_once_set ⟨none, [], false⟩ [restartRec "pending", doneRec]
      [restartRec "completed", doneRec] [restartRec "pending"] ⟨none, [], false⟩ rfl
      [doneRec] [doneRec] rfl).2.2 doneRec (List.mem_singleton.mpr rfl)⟩

end Bridge

namespace Bridge

/-- C9.  The processed-actions cleanup preserves every pending record (all of
them reappear in the rewritten list), keeps at most 10 non-pending records,
and every retained non-pending record has a timestamp at least as large as
every discarded one — i.e. only the most recent terminal records survive. -/
theorem c9_cleanup_keeps_pending_and_newest_ten (acts out : List J)
    (h : cleanupActions acts = some out) :
    (∀ a ∈ acts, isPendingStatus a = true → a ∈ out) ∧
    (out.filter (fun a => !isPendingStatus a)).length ≤ 10 ∧
    (∀ x ∈ out, isPendingStatus x = false →
      ∀ y ∈ acts, isPendingStatus y = false → y ∉ out →
        ∃ tx ty, tsOf x = some tx ∧ tsOf y = some ty ∧ ty ≤ tx) := by
  unfold cleanupActions at h
  by_cases hall : acts.all (fun a => (statusOf a).isSome) = true
  case neg => rw [if_neg hall] at h; simp at h
  rw [if_pos hall] at h
  simp only [] at h
  cases hk : keyed (acts.filter (fun a => !isPendingStatus a)) with
  | none => rw [hk] at h; simp at h
  | some ck =>
    rw [hk] at h
    simp only [Option.some.injEq] at h
    subst h
    refine ⟨?_, ?_, ?_⟩
    · intro a ha hp
      exact List.mem_append.mpr (Or.inl (List.mem_filter.mpr ⟨ha, hp⟩))
    · have hkept : ∀ x ∈ (List.take 10 (sortDesc ck)).map Prod.snd,
          (!isPendingStatus x) = true := by
        intro x hx
        rcases List.mem_map.mp hx with ⟨p, hp, rfl⟩
        have hmem := (mem_sortDesc p ck).mp (List.mem_of_mem_take hp)
        have h2 := (keyed_mem _ _ hk p hmem).2
        exact (List.mem_filter.mp h2).2
      have hpendpart : (List.filter (fun a => isPendingStatus a) acts).filter
          (fun a => !isPendingStatus a) = [] := by
        rw [List.filter_eq_nil_iff]
        intro a ha
        have := (List.mem_filter.mp ha).2
        simp [this]
      rw [List.filter_append, hpendpart, List.nil_append,
        List.filter_eq_self.mpr hkept, List.length_map, List.length_take]
      exact min_le_left _ _
    · intro x hx hxp y hy hyp hynotin
      rcases List.mem_append.mp hx with h0 | h0
      · have := (List.mem_filter.mp h0).2
        rw [hxp] at this
        cases this
      rcases List.mem_map.mp h0 with ⟨px, hpx, rfl⟩
      have hpxck := (mem_sortDesc px ck).mp (List.mem_of_mem_take hpx)
      have htsx := (keyed_mem _ _ hk px hpxck).1
      have hyc : y ∈ acts.filter (fun a => !isPendingStatus a) :=
        List.mem_filter.mpr ⟨hy, by simp [hyp]⟩
      obtain ⟨ty, hty⟩ := keyed_exists _ _ hk y hyc
      have htysort : (ty, y) ∈ sortDesc ck := (mem_sortDesc _ _).mpr hty
      rw [← List.take_append_drop 10 (sortDesc ck)] at htysort
      rcases List.mem_append.mp htysort with hin | hin
      · exfalso
        exact hynotin (List.mem_append.mpr (Or.inr
          (List.mem_map.mpr ⟨(ty, y), hin, rfl⟩)))
      · have hpw := pairwise_sortDesc ck
        rw [← List.take_append_drop 10 (sortDesc ck)] at hpw
        obtain ⟨-, -, hcross⟩ := List.pairwise_append.mp hpw
        have hle : (ty, y).1 ≤ px.1 := hcross px hpx (ty, y) hin
        have htsy := (keyed_mem _ _ hk (ty, y) hty).1
        exact ⟨px.1, ty, htsx, htsy, hle⟩

/-- Witness for `c9_cleanup_keeps_pending_and_newest_ten` on a queue holding
one pending and one completed record. -/
theorem c9_witness :
    restartRec "pending" ∈ ([restartRec "pending", doneRec] : List J) ∧
    (([restartRec "pending", doneRec] : List J).filter (fun a => !isPendingStatus a)).length ≤ 10 :=
  ⟨(c9_cleanup_keeps_pending_and_newest_ten [restartRec "pending", doneRec]
      [restartRec "pending", doneRec] rfl).1 (restartRec "pending")
      (List.mem_cons_self _ _) rfl,
   (c9_cleanup_keeps_pending_and_newest_ten [restartRec "pending", doneRec]
      [restartRec "pending", doneRec] rfl).2.1⟩

end Bridge

namespace Bridge

theorem hasKey_setKey_of (l : List (String × J)) (k k' : String) (v : J)
    (h : hasKey l k' = true) : hasKey (setKey l k v) k' = true := by
  by_cases hk : k' = k
  · subst hk; exact hasKey_setKey_self l k' v
  · rw [hasKey_setKey_ne l k k' v hk]; exact h

theorem addToConfig_noauto_lookup (cf : List (String × J)) (name : String) (cfgv : J)
    (hms : lookupKey cf "mcpServers" = none ∨
      ∃ ms, lookupKey cf "mcpServers" = some (.obj ms)) :
    ∃ cf2, addToConfig (.obj cf) name cfgv (.bool false) = some (.obj cf2) ∧
      namedServerLookup (.obj cf2) name = some cfgv := by
  rcases hms with hnone | ⟨ms, hmsome⟩
  · have h1 : hasKey cf "mcpServers" = false := by simp [hasKey, hnone]
    refine ⟨setKey (setKey cf "mcpServers" (.obj [])) "mcpServers" (.obj [(name, cfgv)]), ?_, ?_⟩
    · unfold addToConfig
      simp only [h1, Bool.false_eq_true, if_false, lookupKey_setKey_self, truthy]
      rfl
    · unfold namedServerLookup
      simp only []
      rw [lookupKey_setKey_self]
      simp [lookupKey]
  · have h1 : hasKey cf "mcpServers" = true := by simp [hasKey, hmsome]
    refine ⟨setKey cf "mcpServers" (.obj (setKey ms name cfgv)), ?_, ?_⟩
    · unfold addToConfig
      simp only [h1, if_true, hmsome, truthy, Bool.false_eq_true, if_false]
    · unfold namedServerLookup
      simp [lookupKey_setKey_self]

/-- C5 (amended).  For every nonempty name, truthy config value, and existing
config file whose loaded document has an absent or dict-valued `mcpServers`
mapping, `add_mcp_server` succeeds and re-loading the saved document yields
`namedServers[name] == cfg`.  (The unrestricted claim fails: empty names and
empty config objects are rejected by the handler's truthiness guard, and a
missing config file makes the backup step fail before any write.) -/
theorem c5_add_then_load_roundtrip (st : Fs) (fc : FileContent) (cf : List (String × J))
    (name : String) (cfgv : J) (hn : name ≠ "") (hc : truthy cfgv = true)
    (hfc : st.configFile = some fc) (hload : load_config (some fc) = .obj cf)
    (hms : lookupKey cf "mcpServers" = none ∨
      ∃ ms, lookupKey cf "mcpServers" = some (.obj ms)) :
    ∃ st' evs, add_mcp_server st (.obj [("name", .str name), ("config", cfgv)]) =
        (true, st', evs) ∧
      namedServerLookup (load_config st'.configFile) name = some cfgv := by
  obtain ⟨cf2, hadd, hlook⟩ := addToConfig_noauto_lookup cf name cfgv hms
  refine ⟨⟨some (.json (.obj cf2)), st.backups ++ [fc], st.reloadSignal⟩,
    [.writeBackup fc, .writeConfig (.json (.obj cf2))], ?_, ?_⟩
  · unfold add_mcp_server
    simp only [show lookupKey [("name", J.str name), ("config", cfgv)] "name" =
        some (J.str name) from rfl,
      show lookupKey [("name", J.str name), ("config", cfgv)] "config" = some cfgv from rfl,
      show lookupKey [("name", J.str name), ("config", cfgv)] "autoStart" = none from rfl,
      Option.getD_some, Option.getD_none, truthyOpt]
    rw [show truthy (J.str name) = true by simp [truthy, hn], hc]
    simp only [Bool.not_true, Bool.or_self, Bool.false_eq_true, if_false]
    rw [hfc, hload, hadd]
    unfold save_config
    rw [hfc]
  · simpa [load_config] using hlook

/-- Witness for `c5_add_then_load_roundtrip`. -/
theorem c5_witness :
    ∃ st' evs, add_mcp_server ⟨some (.json (.obj [])), [], false⟩
        (.obj [("name", .str "srv"), ("config", .num 1)]) = (true, st', evs) ∧
      namedServerLookup (load_config st'.configFile) "srv" = some (.num 1) :=
  c5_add_then_load_roundtrip ⟨some (.json (.obj [])), [], false⟩ (.json (.obj []))
    [] "srv" (.num 1) (by decide) rfl rfl rfl (Or.inl rfl)

/-- C5 counterexample.  The empty object is a config object, yet
`add_server("srv", ∅)` is rejected by the handler's Python-truthiness guard
(`if not server_config`), nothing is written, and loading afterwards finds no
`srv` entry — so the unrestricted round-trip claim is false. -/
theorem c5_cex_empty_config_object :
    add_mcp_server ⟨some (.json (.obj [])), [], false⟩
        (.obj [("name", .str "srv"), ("config", .obj [])]) =
      (false, ⟨some (.json (.obj [])), [], false⟩, []) ∧
    namedServerLookup (load_config (some (FileContent.json (.obj [])))) "srv" = none ∧
    (none : Option J) ≠ some (J.obj []) :=
  ⟨rfl, rfl, by simp⟩

end Bridge

namespace Bridge

theorem isStrEq_true_iff (s : String) (v : J) : isStrEq s v = true ↔ v = J.str s := by
  cases v with
  | str t =>
    simp only [isStrEq, beq_iff_eq, J.str.injEq]
    exact eq_comm
  | null => simp [isStrEq]
  | bool b => simp [isStrEq]
  | num n => simp [isStrEq]
  | arr xs => simp [isStrEq]
  | obj fs => simp [isStrEq]

theorem mem_removeFirstStr (xs : List J) (s : String) (a : J)
    (h : a ∈ removeFirstStr xs s) : a ∈ xs := by
  induction xs with
  | nil => simp [removeFirstStr] at h
  | cons x rest ih =>
    by_cases hx : isStrEq s x = true
    · rw [removeFirstStr, if_pos hx] at h
      exact List.mem_cons_of_mem _ h
    · rw [removeFirstStr, if_neg hx] at h
      rcases List.mem_cons.mp h with rfl | h'
      · exact List.mem_cons_self _ _
      · exact List.mem_cons_of_mem _ (ih h')

theorem not_mem_removeFirstStr (xs : List J) (s : String) (hnd : xs.Nodup) :
    (J.str s) ∉ removeFirstStr xs s := by
  induction xs with
  | nil => simp [removeFirstStr]
  | cons x rest ih =>
    rcases List.nodup_cons.mp hnd with ⟨hx, hrest⟩
    by_cases hxs : isStrEq s x = true
    · rw [removeFirstStr, if_pos hxs]
      rw [isStrEq_true_iff] at hxs
      subst hxs
      exact hx
    · rw [removeFirstStr, if_neg hxs]
      intro hmem
      rcases List.mem_cons.mp hmem with heq | h'
      · exact hxs ((isStrEq_true_iff s x).mpr heq.symm)
      · exact ih hrest h'

theorem autoStartNames_setMcp (cf : List (String × J)) (v : J) :
    autoStartNames (.obj (setKey cf "mcpServers" v)) = autoStartNames (.obj cf) := by
  simp only [autoStartNames]
  rw [lookupKey_setKey_ne cf "mcpServers" "autoStart" v (by decide)]

theorem hasServer_setMcp (cf ms' : List (String × J)) (s : String) :
    hasServer (.obj (setKey cf "mcpServers" (.obj ms'))) s = hasKey ms' s := by
  simp only [hasServer, namedServerLookup]
  rw [lookupKey_setKey_self]
  rfl

theorem hasServer_setAuto (cf : List (String × J)) (v : J) (s : String) :
    hasServer (.obj (setKey cf "autoStart" v)) s = hasServer (.obj cf) s := by
  simp only [hasServer, namedServerLookup]
  rw [lookupKey_setKey_ne cf "autoStart" "mcpServers" v (by decide)]

theorem autoStartNames_setAuto (cf af' : List (String × J)) :
    autoStartNames (.obj (setKey cf "autoStart" (.obj af'))) =
      (match lookupKey af' "servers" with
       | some (.arr xs) => xs
       | _ => []) := by
  simp only [autoStartNames]
  rw [lookupKey_setKey_self]

theorem hasServer_of_obj (cf ms : List (String × J)) (s : String)
    (h : lookupKey cf "mcpServers" = some (.obj ms)) :
    hasServer (.obj cf) s = hasKey ms s := by
  simp only [hasServer, namedServerLookup]
  rw [h]
  rfl

theorem hasServer_of_none (cf : List (String × J)) (s : String)
    (h : lookupKey cf "mcpServers" = none) :
    hasServer (.obj cf) s = false := by
  simp only [hasServer, namedServerLookup]
  rw [h]
  rfl

theorem autoStartNames_of (cf af : List (String × J)) (v : J)
    (h1 : lookupKey cf "autoStart" = some (.obj af))
    (h2 : lookupKey af "servers" = some v) :
    autoStartNames (.obj cf) = (match v with | .arr xs => xs | _ => []) := by
  cases v <;> (simp only [autoStartNames]; rw [h1]; simp only []; rw [h2])

theorem autoStartNames_of_none (cf : List (String × J))
    (h : lookupKey cf "autoStart" = none) :
    autoStartNames (.obj cf) = [] := by
  simp only [autoStartNames]
  rw [h]

theorem autoStartNames_of_notObj (cf : List (String × J)) (v : J)
    (h : lookupKey cf "autoStart" = some v) (hv : ∀ af, v ≠ .obj af) :
    autoStartNames (.obj cf) = [] := by
  simp only [autoStartNames]
  rw [h]
  cases v with
  | obj af => exact absurd rfl (hv af)
  | null => rfl
  | bool b => rfl
  | num n => rfl
  | str t => rfl
  | arr xs => rfl

theorem autoStartNames_of_noServers (cf af : List (String × J))
    (h1 : lookupKey cf "autoStart" = some (.obj af))
    (h2 : lookupKey af "servers" = none) :
    autoStartNames (.obj cf) = [] := by
  simp only [autoStartNames]
  rw [h1]
  simp only []
  rw [h2]

end Bridge

namespace Bridge

theorem mcpStep (cf ms cf1 : List (String × J)) (name : String) (sc : J)
    (hinv : serversInv (.obj cf))
    (hcf1 : cf1 = if hasKey cf "mcpServers" = true then cf
                  else setKey cf "mcpServers" (.obj []))
    (hml : lookupKey cf1 "mcpServers" = some (.obj ms)) :
    autoStartNames (.obj (setKey cf1 "mcpServers" (.obj (setKey ms name sc)))) =
      autoStartNames (.obj cf) ∧
    (∀ t, (J.str t) ∈ autoStartNames (.obj cf) →
      hasServer (.obj (setKey cf1 "mcpServers" (.obj (setKey ms name sc)))) t = true) ∧
    hasServer (.obj (setKey cf1 "mcpServers" (.obj (setKey ms name sc)))) name = true := by
  by_cases hmk : hasKey cf "mcpServers" = true
  · rw [if_pos hmk] at hcf1
    rw [hcf1] at hml ⊢
    refine ⟨autoStartNames_setMcp cf _, ?_, ?_⟩
    · intro t ht
      rw [hasServer_setMcp]
      have hsrv := hinv t ht
      rw [hasServer_of_obj cf ms t hml] at hsrv
      exact hasKey_setKey_of ms name t sc hsrv
    · rw [hasServer_setMcp]
      exact hasKey_setKey_self ms name sc
  · rw [if_neg hmk] at hcf1
    rw [hcf1] at hml ⊢
    have hnone : lookupKey cf "mcpServers" = none := by
      rcases hl : lookupKey cf "mcpServers" with _ | v
      · rfl
      · exact absurd (by simp [hasKey, hl]) hmk
    refine ⟨by rw [autoStartNames_setMcp, autoStartNames_setMcp], ?_, ?_⟩
    · intro t ht
      exfalso
      have hsrv := hinv t ht
      rw [hasServer_of_none cf t hnone] at hsrv
      exact Bool.false_ne_true hsrv
    · rw [hasServer_setMcp]
      exact hasKey_setKey_self ms name sc

end Bridge

namespace Bridge

theorem addToConfig_inv (cf : List (String × J)) (name : String) (sc fl : J) (newDoc : J)
    (hinv : serversInv (.obj cf))
    (h : addToConfig (.obj cf) name sc fl = some newDoc) :
    serversInv newDoc := by
  unfold addToConfig at h
  simp only [] at h
  revert h
  generalize hcf1 : (if hasKey cf "mcpServers" = true then cf
      else setKey cf "mcpServers" (.obj [])) = cf1
  intro h
  cases hml : lookupKey cf1 "mcpServers" with
  | none => rw [hml] at h; simp at h
  | some msv =>
    rw [hml] at h
    cases msv with
    | obj ms =>
      simp only [] at h
      obtain ⟨fact1, fact2, fact3⟩ := mcpStep cf ms cf1 name sc hinv hcf1.symm hml
      by_cases hfl : truthy fl = true
      case neg =>
        rw [if_neg hfl] at h
        obtain rfl := Option.some.inj h
        intro t ht
        rw [fact1] at ht
        exact fact2 t ht
      case pos =>
        rw [if_pos hfl] at h
        by_cases hak : hasKey (setKey cf1 "mcpServers" (.obj (setKey ms name sc))) "autoStart" = true
        · rw [if_pos hak] at h
          cases hal : lookupKey (setKey cf1 "mcpServers" (.obj (setKey ms name sc))) "autoStart" with
          | none => rw [hal] at h; simp at h
          | some av =>
            rw [hal] at h
            cases av with
            | obj af =>
              simp only [] at h
              cases hsrv : lookupKey af "servers" with
              | none => rw [hsrv] at h; simp at h
              | some servers =>
                rw [hsrv] at h
                simp only [] at h
                cases hin : pyInStr name servers with
                | none => rw [hin] at h; simp at h
                | some b =>
                  rw [hin] at h
                  cases b with
                  | true =>
                    obtain rfl := Option.some.inj h
                    intro t ht
                    rw [fact1] at ht
                    exact fact2 t ht
                  | false =>
                    cases servers with
                    | arr xs =>
                      obtain rfl := Option.some.inj h
                      have hnamesOld : autoStartNames (.obj cf) = xs := by
                        rw [← fact1, autoStartNames_of _ af (.arr xs) hal hsrv]
                      intro t ht
                      rw [autoStartNames_setAuto, lookupKey_setKey_self] at ht
                      rw [hasServer_setAuto]
                      rcases List.mem_append.mp ht with h0 | h0
                      · exact fact2 t (by rw [hnamesOld]; exact h0)
                      · have ht2 : t = name :=
                          (J.str.injEq t name).mp (List.mem_singleton.mp h0)
                        subst ht2
                        exact fact3
                    | null => simp at h
                    | bool b2 => simp at h
                    | num n2 => simp at h
                    | str s2 => simp at h
                    | obj fs2 => simp at h
            | null => simp at h
            | bool b2 => simp at h
            | num n2 => simp at h
            | str s2 => simp at h
            | arr xs2 => simp at h
        · rw [if_neg hak] at h
          rw [lookupKey_setKey_self] at h
          simp only [] at h
          rw [show lookupKey [("servers", J.arr [])] "servers" = some (J.arr []) from rfl] at h
          simp only [] at h
          rw [show pyInStr name (J.arr []) = some false from rfl] at h
          obtain rfl := Option.some.inj h
          intro t ht
          rw [autoStartNames_setAuto, lookupKey_setKey_self] at ht
          rw [hasServer_setAuto, hasServer_setAuto]
          have ht2 : t = name := by
            simp only [List.nil_append] at ht
            exact (J.str.injEq t name).mp (List.mem_singleton.mp ht)
          subst ht2
          exact fact3
    | null => simp at h
    | bool b2 => simp at h
    | num n2 => simp at h
    | str s2 => simp at h
    | arr xs2 => simp at h

end Bridge

namespace Bridge

theorem removeFromConfig_inv (cf : List (String × J)) (name : String) (newDoc : J)
    (hinv : serversInv (.obj cf))
    (hnd : (autoStartNames (.obj cf)).Nodup)
    (h : removeFromConfig (.obj cf) name = some newDoc) :
    serversInv newDoc ∧ hasServer newDoc name = false ∧
      (J.str name) ∉ autoStartNames newDoc := by
  unfold removeFromConfig at h
  simp only [] at h
  cases hml : lookupKey cf "mcpServers" with
  | none => rw [hml] at h; simp at h
  | some msv =>
    rw [hml] at h
    simp only [] at h
    cases hin : pyInStr name msv with
    | none => rw [hin] at h; simp at h
    | some b =>
      rw [hin] at h
      cases b with
      | false => simp at h
      | true =>
        cases msv with
        | null => simp at h
        | bool b2 => simp at h
        | num n2 => simp at h
        | str s2 => simp at h
        | arr xs2 => simp at h
        | obj ms =>
          simp only [] at h
          have factA : autoStartNames (.obj (setKey cf "mcpServers" (.obj (delKey ms name)))) =
              autoStartNames (.obj cf) := autoStartNames_setMcp cf _
          have factB : ∀ t, t ≠ name → (J.str t) ∈ autoStartNames (.obj cf) →
              hasServer (.obj (setKey cf "mcpServers" (.obj (delKey ms name)))) t = true := by
            intro t hne ht
            rw [hasServer_setMcp]
            have hsrv := hinv t ht
            rw [hasServer_of_obj cf ms t hml] at hsrv
            rw [hasKey_delKey_ne ms name t hne]
            exact hsrv
          have factC : hasServer (.obj (setKey cf "mcpServers" (.obj (delKey ms name)))) name = false := by
            rw [hasServer_setMcp]
            exact hasKey_delKey_self ms name
          cases hal : lookupKey (setKey cf "mcpServers" (.obj (delKey ms name))) "autoStart" with
          | none =>
            rw [hal] at h
            obtain rfl := Option.some.inj h
            have hnames : autoStartNames (.obj (setKey cf "mcpServers" (.obj (delKey ms name)))) = [] :=
              autoStartNames_of_none _ hal
            refine ⟨?_, factC, ?_⟩
            · intro t ht
              rw [hnames] at ht
              simp at ht
            · rw [hnames]
              simp
          | some asv =>
            rw [hal] at h
            simp only [] at h
            cases hsin : pyInStr "servers" asv with
            | none => rw [hsin] at h; simp at h
            | some b2 =>
              rw [hsin] at h
              cases b2 with
              | false =>
                obtain rfl := Option.some.inj h
                have hnames : autoStartNames (.obj (setKey cf "mcpServers" (.obj (delKey ms name)))) = [] := by
                  cases asv with
                  | obj af =>
                    have hk : hasKey af "servers" = false := by
                      have := Option.some.inj hsin
                      simpa [pyInStr] using this.symm
                    have hlsrv : lookupKey af "servers" = none := by
                      rcases hl : lookupKey af "servers" with _ | v
                      · rfl
                      · rw [hasKey, hl] at hk
                        simp at hk
                    exact autoStartNames_of_noServers _ af hal hlsrv
                  | arr ys => exact autoStartNames_of_notObj _ _ hal (by intro af hne; cases hne)
                  | str t2 => exact autoStartNames_of_notObj _ _ hal (by intro af hne; cases hne)
                  | null => simp [pyInStr] at hsin
                  | bool b3 => simp [pyInStr] at hsin
                  | num n3 => simp [pyInStr] at hsin
                refine ⟨?_, factC, ?_⟩
                · intro t ht
                  rw [hnames] at ht
                  simp at ht
                · rw [hnames]
                  simp
              | true =>
                cases asv with
                | null => simp [pyInStr] at hsin
                | bool b3 => simp at h
                | num n3 => simp at h
                | str s3 => simp at h
                | arr ys => simp at h
                | obj af =>
                  simp only [] at h
                  cases hsrv : lookupKey af "servers" with
                  | none => rw [hsrv] at h; simp at h
                  | some servers =>
                    rw [hsrv] at h
                    simp only [] at h
                    cases hin2 : pyInStr name servers with
                    | none => rw [hin2] at h; simp at h
                    | some b3 =>
                      rw [hin2] at h
                      cases b3 with
                      | false =>
                        obtain rfl := Option.some.inj h
                        cases servers with
                        | arr xs =>
                          have hnames : autoStartNames
                              (.obj (setKey cf "mcpServers" (.obj (delKey ms name)))) = xs :=
                            autoStartNames_of _ af (.arr xs) hal hsrv
                          have hnmem : (J.str name) ∉ xs := by
                            intro hmem
                            have hany : xs.any (isStrEq name) = false := by
                              simpa [pyInStr] using hin2
                            exact List.any_eq_false.mp hany (J.str name) hmem (by simp [isStrEq])
                          refine ⟨?_, factC, ?_⟩
                          · intro t ht
                            rw [hnames] at ht
                            have hne : t ≠ name := by
                              intro hteq
                              subst hteq
                              exact hnmem ht
                            apply factB t hne
                            rw [← factA, hnames]
                            exact ht
                          · rw [hnames]
                            exact hnmem
                        | null =>
                          have hnames : autoStartNames
                              (.obj (setKey cf "mcpServers" (.obj (delKey ms name)))) = [] :=
                            autoStartNames_of _ af .null hal hsrv
                          exact ⟨by intro t ht; rw [hnames] at ht; simp at ht, factC,
                            by rw [hnames]; simp⟩
                        | bool b4 =>
                          have hnames : autoStartNames
                              (.obj (setKey cf "mcpServers" (.obj (delKey ms name)))) = [] :=
                            autoStartNames_of _ af (.bool b4) hal hsrv
                          exact ⟨by intro t ht; rw [hnames] at ht; simp at ht, factC,
                            by rw [hnames]; simp⟩
                        | num n4 =>
                          have hnames : autoStartNames
                              (.obj (setKey cf "mcpServers" (.obj (delKey ms name)))) = [] :=
                            autoStartNames_of _ af (.num n4) hal hsrv
                          exact ⟨by intro t ht; rw [hnames] at ht; simp at ht, factC,
                            by rw [hnames]; simp⟩
                        | str s4 =>
                          have hnames : autoStartNames
                              (.obj (setKey cf "mcpServers" (.obj (delKey ms name)))) = [] :=
                            autoStartNames_of _ af (.str s4) hal hsrv
                          exact ⟨by intro t ht; rw [hnames] at ht; simp at ht, factC,
                            by rw [hnames]; simp⟩
                        | obj fs4 =>
                          have hnames : autoStartNames
                              (.obj (setKey cf "mcpServers" (.obj (delKey ms name)))) = [] :=
                            autoStartNames_of _ af (.obj fs4) hal hsrv
                          exact ⟨by intro t ht; rw [hnames] at ht; simp at ht, factC,
                            by rw [hnames]; simp⟩
                      | true =>
                        cases servers with
                        | null => simp at h
                        | bool b4 => simp at h
                        | num n4 => simp at h
                        | str s4 => simp at h
                        | obj fs4 => simp at h
                        | arr xs =>
                          obtain rfl := Option.some.inj h
                          have hnamesC : autoStartNames
                              (.obj (setKey cf "mcpServers" (.obj (delKey ms name)))) = xs :=
                            autoStartNames_of _ af (.arr xs) hal hsrv
                          have hndxs : xs.Nodup := by
                            rw [← factA, hnamesC] at hnd
                            exact hnd
                          have hnamesNew : autoStartNames
                              (.obj (setKey (setKey cf "mcpServers" (.obj (delKey ms name)))
                                "autoStart" (.obj (setKey af "servers"
                                  (.arr (removeFirstStr xs name)))))) =
                              removeFirstStr xs name := by
                            rw [autoStartNames_setAuto, lookupKey_setKey_self]
                          refine ⟨?_, ?_, ?_⟩
                          · intro t ht
                            rw [hnamesNew] at ht
                            rw [hasServer_setAuto]
                            have hne : t ≠ name := by
                              intro hteq
                              subst hteq
                              exact not_mem_removeFirstStr xs t hndxs ht
                            apply factB t hne
                            rw [← factA, hnamesC]
                            exact mem_removeFirstStr xs name _ ht
                          · rw [hasServer_setAuto]
                            exact factC
                          · rw [hnamesNew]
                            exact not_mem_removeFirstStr xs name hndxs

end Bridge

namespace Bridge

theorem add_mcp_server_success (st st' : Fs) (params : J) (evs : List FsEvent)
    (h : add_mcp_server st params = (true, st', evs)) :
    ∃ name sc fl newConfig old,
      addToConfig (load_config st.configFile) name sc fl = some newConfig ∧
      st.configFile = some old ∧ st'.configFile = some (.json newConfig) := by
  unfold add_mcp_server at h
  cases params with
  | obj pf =>
    simp only [] at h
    by_cases hg : (!truthyOpt (lookupKey pf "name") ||
        !truthy ((lookupKey pf "config").getD (J.obj []))) = true
    · rw [if_pos hg] at h
      simp at h
    · rw [if_neg hg] at h
      cases hname : lookupKey pf "name" with
      | none => rw [hname] at h; simp at h
      | some nv =>
        rw [hname] at h
        cases nv with
        | str name =>
          simp only [] at h
          cases haddc : addToConfig (load_config st.configFile) name
              ((lookupKey pf "config").getD (J.obj []))
              ((lookupKey pf "autoStart").getD (J.bool false)) with
          | none => rw [haddc] at h; simp at h
          | some nc =>
            rw [haddc] at h
            unfold save_config at h
            cases hcf : st.configFile with
            | none => rw [hcf] at h; simp at h
            | some old =>
              rw [hcf] at h haddc
              simp only [Prod.mk.injEq] at h
              obtain ⟨-, hst, -⟩ := h
              exact ⟨name, _, _, nc, old, haddc, rfl, by rw [← hst]⟩
        | null => simp at h
        | bool b => simp at h
        | num n => simp at h
        | arr xs => simp at h
        | obj fs => simp at h
  | null => simp at h
  | bool b => simp at h
  | num n => simp at h
  | str s2 => simp at h
  | arr xs => simp at h

theorem remove_mcp_server_success (st st' : Fs) (s : String) (evs : List FsEvent)
    (h : remove_mcp_server st (.obj [("name", .str s)]) = (true, st', evs)) :
    ∃ newConfig old,
      removeFromConfig (load_config st.configFile) s = some newConfig ∧
      st.configFile = some old ∧ st'.configFile = some (.json newConfig) := by
  unfold remove_mcp_server at h
  simp only [show lookupKey [("name", J.str s)] "name" = some (J.str s) from rfl] at h
  by_cases hs : truthy (J.str s) = true
  · simp only [hs, Bool.not_true, Bool.false_eq_true, if_false] at h
    cases hrc : removeFromConfig (load_config st.configFile) s with
    | none => rw [hrc] at h; simp at h
    | some nc =>
      rw [hrc] at h
      unfold save_config at h
      cases hcf : st.configFile with
      | none => rw [hcf] at h; simp at h
      | some old =>
        rw [hcf] at h hrc
        simp only [Prod.mk.injEq] at h
        obtain ⟨-, hst, -⟩ := h
        exact ⟨nc, old, rfl, rfl, by rw [← hst]⟩
  · have hs' : truthy (J.str s) = false := by simpa using hs
    simp only [hs', Bool.not_false, if_true] at h
    simp at h

/-- C6.  Provided the document invariant held before — every name in
`autoStart.servers` is a key of `mcpServers`, and the servers list is
duplicate-free as the data model's "ordered set" stipulates — every
successful `add_mcp_server` or `remove_mcp_server` mutation preserves it;
in particular a successful removal of `s` leaves `s` neither in
`mcpServers` nor in `autoStart.servers`. -/
theorem c6_autostart_names_subset (st : Fs) (params : J) (st' : Fs) (evs : List FsEvent)
    (hinv : serversInv (load_config st.configFile))
    (hnd : (autoStartNames (load_config st.configFile)).Nodup) :
    (add_mcp_server st params = (true, st', evs) →
      serversInv (load_config st'.configFile)) ∧
    (∀ s : String, remove_mcp_server st (.obj [("name", .str s)]) = (true, st', evs) →
      serversInv (load_config st'.configFile) ∧
      hasServer (load_config st'.configFile) s = false ∧
      (J.str s) ∉ autoStartNames (load_config st'.configFile)) := by
  constructor
  · intro h
    obtain ⟨name, sc, fl, nc, old, haddc, hcf, hcf'⟩ :=
      add_mcp_server_success st st' params evs h
    rw [hcf']
    cases hdoc : load_config st.configFile with
    | obj cf =>
      rw [hdoc] at haddc hinv
      simpa [load_config] using addToConfig_inv cf name sc fl nc hinv haddc
    | null => rw [hdoc] at haddc; unfold addToConfig at haddc; simp at haddc
    | bool b => rw [hdoc] at haddc; unfold addToConfig at haddc; simp at haddc
    | num n => rw [hdoc] at haddc; unfold addToConfig at haddc; simp at haddc
    | str s2 => rw [hdoc] at haddc; unfold addToConfig at haddc; simp at haddc
    | arr xs => rw [hdoc] at haddc; unfold addToConfig at haddc; simp at haddc
  · intro s h
    obtain ⟨nc, old, hrc, hcf, hcf'⟩ := remove_mcp_server_success st st' s evs h
    rw [hcf']
    cases hdoc : load_config st.configFile with
    | obj cf =>
      rw [hdoc] at hrc hinv hnd
      simpa [load_config] using removeFromConfig_inv cf s nc hinv hnd hrc
    | null => rw [hdoc] at hrc; unfold removeFromConfig at hrc; simp at hrc
    | bool b => rw [hdoc] at hrc; unfold removeFromConfig at hrc; simp at hrc
    | num n => rw [hdoc] at hrc; unfold removeFromConfig at hrc; simp at hrc
    | str s2 => rw [hdoc] at hrc; unfold removeFromConfig at hrc; simp at hrc
    | arr xs => rw [hdoc] at hrc; unfold removeFromConfig at hrc; simp at hrc

end Bridge

namespace Bridge

/-- Witness for `c6_autostart_names_subset`: removing server `a`, which was
auto-started, purges it from both mappings. -/
theorem c6_witness :
    serversInv (load_config (some (FileContent.json
      (J.obj [("mcpServers", J.obj []), ("autoStart", J.obj [("servers", J.arr [])])])))) ∧
    hasServer (load_config (some (FileContent.json
      (J.obj [("mcpServers", J.obj []), ("autoStart", J.obj [("servers", J.arr [])])])))) "a" = false ∧
    (J.str "a") ∉ autoStartNames (load_config (some (FileContent.json
      (J.obj [("mcpServers", J.obj []), ("autoStart", J.obj [("servers", J.arr [])])])))) :=
  (c6_autostart_names_subset
    ⟨some (.json (J.obj [("mcpServers", J.obj [("a", J.num 1)]),
        ("autoStart", J.obj [("servers", J.arr [J.str "a"])])])), [], false⟩
    J.null
    ⟨some (.json (J.obj [("mcpServers", J.obj []),
        ("autoStart", J.obj [("servers", J.arr [])])])),
     [.json (J.obj [("mcpServers", J.obj [("a", J.num 1)]),
        ("autoStart", J.obj [("servers", J.arr [J.str "a"])])])], false⟩
    [.writeBackup (.json (J.obj [("mcpServers", J.obj [("a", J.num 1)]),
        ("autoStart", J.obj [("servers", J.arr [J.str "a"])])])),
     .writeConfig (.json (J.obj [("mcpServers", J.obj []),
        ("autoStart", J.obj [("servers", J.arr [])])]))]
    (by
      intro t ht
      rw [show autoStartNames (load_config (some (FileContent.json
        (J.obj [("mcpServers", J.obj [("a", J.num 1)]),
          ("autoStart", J.obj [("servers", J.arr [J.str "a"])])])))) = [J.str "a"] from rfl] at ht
      have hta : t = "a" := (J.str.injEq t "a").mp (List.mem_singleton.mp ht)
      subst hta
      rfl)
    (by
      rw [show autoStartNames (load_config (some (FileContent.json
        (J.obj [("mcpServers", J.obj [("a", J.num 1)]),
          ("autoStart", J.obj [("servers", J.arr [J.str "a"])])])))) = [J.str "a"] from rfl]
      exact List.nodup_singleton _)).2 "a" rfl

end Bridge

namespace Wsl

theorem stripNl_cons (a x : Char) (xs : List Char) :
    stripNl (a :: x :: xs) = a :: stripNl (x :: xs) := by
  unfold stripNl
  rw [List.getLast?_cons_cons]
  by_cases h : (x :: xs).getLast? = some '\n'
  · rw [if_pos h, if_pos h]
    rfl
  · rw [if_neg h, if_neg h]

theorem stripNl_cases (l : List Char) :
    (l.getLast? ≠ some '\n' ∧ stripNl l = l) ∨
    (l.getLast? = some '\n' ∧ l = stripNl l ++ ['\n']) := by
  by_cases h : l.getLast? = some '\n'
  · right
    refine ⟨h, ?_⟩
    unfold stripNl
    rw [if_pos h]
    have hne : l ≠ [] := by
      intro h0
      rw [h0] at h
      simp at h
    have hlast : l.getLast hne = '\n' := by
      have := List.getLast?_eq_getLast_of_ne_nil hne
      rw [h] at this
      exact (Option.some.inj this).symm
    conv_lhs => rw [← List.dropLast_append_getLast hne]
    rw [hlast]
  · left
    refine ⟨h, ?_⟩
    unfold stripNl
    rw [if_neg h]

theorem lowerAlpha_ne_newline (c : Char) (h : lowerAlpha c = true) : c ≠ '\n' := by
  intro h0
  subst h0
  simp [lowerAlpha] at h

theorem stripNl_of_getLast_ne (l : List Char) (h : l.getLast? ≠ some '\n') :
    stripNl l = l := by
  unfold stripNl
  rw [if_neg h]

theorem stripNl_concat_newline (l : List Char) : stripNl (l ++ ['\n']) = l := by
  unfold stripNl
  simp

theorem mntMatch_some_inv (l : List Char) (c : Char) (rest : List Char)
    (h : mntMatch l = some (c, rest)) :
    ∃ t, l = '/' :: 'm' :: 'n' :: 't' :: '/' :: c :: t ∧ lowerAlpha c = true ∧
      rest = stripNl t ∧
      (rest = [] ∨ (rest.head? = some '/' ∧ noNl rest = true)) := by
  unfold mntMatch at h
  split at h
  · next c' t =>
    by_cases hlc : lowerAlpha c' = true
    · rw [if_pos hlc] at h
      simp only [] at h
      by_cases hb : stripNl t = []
      · rw [show (if t.getLast? = some '\n' then t.dropLast else t) = stripNl t from rfl,
          if_pos hb] at h
        obtain ⟨rfl, rfl⟩ := Prod.mk.injEq .. ▸ Option.some.inj h
        exact ⟨t, rfl, hlc, hb.symm, Or.inl rfl⟩
      · rw [show (if t.getLast? = some '\n' then t.dropLast else t) = stripNl t from rfl,
          if_neg hb] at h
        cases hst : stripNl t with
        | nil => exact absurd hst hb
        | cons b0 b1 =>
          rw [hst] at h
          split at h
          · next heqp =>
            by_cases hn : noNl (b0 :: b1) = true
            · rw [if_pos hn] at h
              obtain ⟨rfl, hrest⟩ := Prod.mk.injEq .. ▸ Option.some.inj h
              refine ⟨t, rfl, hlc, ?_, Or.inr ⟨?_, ?_⟩⟩
              · rw [← hrest, hst]
              · rw [← hrest]
                rw [show (b0 :: b1).head? = some b0 from rfl]
                rw [show b0 = '/' from by injection heqp]
              · rw [← hrest]
                exact hn
            · rw [if_neg hn] at h
              simp at h
          · simp at h
    · rw [if_neg hlc] at h
      simp at h
  · simp at h

end Wsl

namespace Wsl

theorem mntMatch_some_of (c : Char) (t rest : List Char)
    (hlc : lowerAlpha c = true) (hrest : rest = stripNl t)
    (hcond : rest = [] ∨ (rest.head? = some '/' ∧ noNl rest = true)) :
    mntMatch ('/' :: 'm' :: 'n' :: 't' :: '/' :: c :: t) = some (c, rest) := by
  unfold mntMatch
  simp only []
  rw [if_pos hlc]
  rw [show (if t.getLast? = some '\n' then t.dropLast else t) = stripNl t from rfl]
  subst hrest
  by_cases hb : stripNl t = []
  · rw [if_pos hb, hb]
  · rw [if_neg hb]
    rcases hcond with hc | ⟨hh, hn⟩
    · exact absurd hc hb
    · cases hst : stripNl t with
      | nil => exact absurd hst hb
      | cons b0 b1 =>
        have hb0 : b0 = '/' := by
          rw [hst] at hh
          exact Option.some.inj hh
        subst hb0
        rw [hst] at hn
        simp only []
        rw [if_pos hn]

/-- C10 (amended).  `convert_path_to_windows` agrees exactly with the
spec-level description `convertSpec`: `None`/empty inputs give `None`; after
discarding one trailing newline, inputs of the shape
`/mnt/<lowercase letter><optional /rest with no interior newline>` are
rewritten to `<DRIVE>:<rest with / replaced by \>`; every other input is
returned unchanged.  The trailing-newline tolerance and the interior-newline
rejection come from Python's `$` and `.` regex semantics and are the only
corrections to the claim. -/
theorem c10_convert_path_matches_spec (p : Option String) :
    convert_path_to_windows p = convertSpec p := by
  cases p with
  | none => rfl
  | some s =>
    obtain ⟨l⟩ := s
    simp only [convert_path_to_windows, convertSpec]
    by_cases hl : String.mk l = ""
    · rw [if_pos hl, if_pos hl]
    · rw [if_neg hl, if_neg hl]
      cases hm : mntMatch l with
      | some pr =>
        obtain ⟨c, rest⟩ := pr
        obtain ⟨t, hleq, hlc, hrest, hcond⟩ := mntMatch_some_inv l c rest hm
        subst hleq
        simp only []
        rw [stripNl_cons, stripNl_cons, stripNl_cons, stripNl_cons, stripNl_cons]
        cases t with
        | nil =>
          have hsc : stripNl [c] = [c] := by
            unfold stripNl
            rw [if_neg (by simp [lowerAlpha_ne_newline c hlc])]
          rw [hsc]
          rw [show stripNl ([] : List Char) = [] from rfl] at hrest
          subst hrest
          simp [hlc]
        | cons x xs =>
          rw [stripNl_cons, ← hrest]
          simp only []
          rcases hcond with hre | ⟨hh, hn⟩
          · subst hre
            simp [hlc]
          · simp [hlc, hh, hn]
      | none =>
        simp only []
        split
        · next c rest heq =>
          by_cases hcnd : (lowerAlpha c &&
              (rest.isEmpty || (decide (rest.head? = some '/') && noNl rest))) = true
          · exfalso
            rw [Bool.and_eq_true] at hcnd
            obtain ⟨hlc', hor⟩ := hcnd
            rw [Bool.or_eq_true] at hor
            have hcondP : rest = [] ∨ (rest.head? = some '/' ∧ noNl rest = true) := by
              rcases hor with hie | hand
              · left
                exact List.isEmpty_iff.mp hie
              · rw [Bool.and_eq_true] at hand
                obtain ⟨hd, hn⟩ := hand
                exact Or.inr ⟨of_decide_eq_true hd, hn⟩
            have hmm : mntMatch l = some (c, rest) := by
              rcases stripNl_cases l with ⟨hnl, hstr⟩ | ⟨hnl, hstr⟩
              · have hlp : l = '/' :: 'm' :: 'n' :: 't' :: '/' :: c :: rest :=
                  hstr.symm.trans heq
                rw [hlp]
                apply mntMatch_some_of c rest rest hlc' ?_ hcondP
                cases rest with
                | nil => rfl
                | cons r0 r1 =>
                  rw [hlp] at hnl
                  simp only [List.getLast?_cons_cons] at hnl
                  exact (stripNl_of_getLast_ne _ hnl).symm
              · have hlp : l = '/' :: 'm' :: 'n' :: 't' :: '/' :: c :: (rest ++ ['\n']) := by
                  rw [hstr, heq]
                  simp
                rw [hlp]
                exact mntMatch_some_of c (rest ++ ['\n']) rest hlc'
                  (stripNl_concat_newline rest).symm hcondP
            exact Option.noConfusion (hm.symm.trans hmm)
          · rw [if_neg hcnd]
        · rfl

/-- C10 counterexample.  `/mnt/c` followed by a newline is a non-empty input
that does not match the claim's described pattern (the tail does not begin
with `/`), so the claim says it is returned unchanged; the code's regex lets
`$` match before the trailing newline and returns `C:` instead. -/
theorem c10_cex_trailing_newline :
    convert_path_to_windows (some "/mnt/c\n") = some "C:" ∧
    ("C:" : String) ≠ "/mnt/c\n" :=
  ⟨rfl, by decide⟩

end Wsl
